import Mathlib

/-!
# Verification of the Ashlag Yomi content rotation and segmentation engine

This file gives a shallow embedding, in Lean 4, of the algorithmic core of the
`ashlag-yomi` repository:

* the Python string primitives used by the code (`str.strip`, `str.rfind`
  with an `end` argument, slicing, floor division) over `List Char`;
* the boundary-preferring text segmenter `split_hebrew_text`
  (src/ashlagyomibot/src/bot/formatters.py);
* the message assembler `format_maamar` and its header/footer renderers
  (same file);
* the keyboard-attachment loop of the `/today` handler
  (src/ashlagyomibot/src/bot/handlers.py);
* the fair-rotation selector `get_random_by_category`, the ledger query
  `get_sent_ids_by_category` and the pick+record cycle
  (src/ashlagyomibot/src/data/repository.py);
* the date-seeded daily picker `get_quote_for_source` / `get_daily_quotes`
  (src/src/quote_manager.py).

Python strings are modelled as `List Char` (Python `len` counts code points,
as does `List.length` here).  The Python `random` module and `hashlib.md5`
are external libraries; they are modelled by explicit parameters:
a seeding function `seedFn : Nat → Nat` (the state set by `random.seed(n)`),
a drawing function `choiceFn : Nat → Nat → Nat` (state and sequence length to
drawn index, as in `random.choice`), a state-step function `stepFn` and a
date-hash value.  Selection functions are stated for arbitrary such
parameters, so theorems hold for every possible behaviour of the PRNG, and
counterexamples instantiate them at concrete in-range draws.
-/

namespace AshlagYomi

/-! ## Python string primitives -/

/-- The whitespace characters stripped by Python's `str.strip()`
(characters for which `str.isspace()` holds). -/
def pyIsSpace (c : Char) : Bool :=
  c = ' ' || c = '\t' || c = '\n' || c = '\u000b' || c = '\u000c' || c = '\r' ||
  c = '\u001c' || c = '\u001d' || c = '\u001e' || c = '\u001f' || c = '\u0085' ||
  c = '\u00a0' || c = '\u1680' || ('\u2000' ≤ c && c ≤ '\u200a') ||
  c = '\u2028' || c = '\u2029' || c = '\u202f' || c = '\u205f' || c = '\u3000'

/-- Python `s.strip()`: remove leading and trailing whitespace. -/
def pyStrip (l : List Char) : List Char :=
  ((l.dropWhile pyIsSpace).reverse.dropWhile pyIsSpace).reverse

/-- Python `s[:i]` for an `int` index `i` (negative indices count from the
end, clamped at 0). -/
def pyTake (l : List Char) (i : Int) : List Char :=
  if i < 0 then l.take ((l.length + i).toNat) else l.take i.toNat

/-- Python `s[i:]` for an `int` index `i` (negative indices count from the
end, clamped at 0). -/
def pyDrop (l : List Char) (i : Int) : List Char :=
  if i < 0 then l.drop ((l.length + i).toNat) else l.drop i.toNat

/-- Does the substring `sub` occur in `l` at position `i`? -/
def matchesAt (sub l : List Char) (i : Nat) : Bool :=
  (l.drop i).take sub.length == sub

/-- Right-to-left scan underlying `pyRFind`: try positions `n-1, n-2, …, 0`
and return the first (hence highest) position where `sub` occurs with the
occurrence ending at or before `e`; `-1` if none. -/
def pyRFindGo (sub l : List Char) (e : Nat) : Nat → Int
  | 0 => -1
  | n + 1 =>
    if decide (n + sub.length ≤ e) && matchesAt sub l n then (n : Int)
    else pyRFindGo sub l e n

/-- Python `s.rfind(sub, 0, endI)`: highest index of an occurrence of `sub`
lying entirely inside `s[0:endI]`, or `-1`.  A negative `endI` counts from
the end of the string and is clamped at 0, as in Python slice semantics. -/
def pyRFind (sub l : List Char) (endI : Int) : Int :=
  let effEnd : Nat := if endI < 0 then ((l.length : Int) + endI).toNat
                      else min endI.toNat l.length
  pyRFindGo sub l effEnd effEnd

/-! ## The text segmenter `split_hebrew_text` (formatters.py, lines 277-330) -/

/-- The split-point search of `split_hebrew_text` (formatters.py lines
305-321), for `remaining` with `len(remaining) > max_length`:

    split_at = max_length
    para_pos = remaining.rfind("\n\n", 0, max_length)
    if para_pos > max_length // 2: split_at = para_pos + 2
    elif (sent_pos := remaining.rfind(".", 0, max_length)) > max_length // 2
         or (sent_pos := remaining.rfind("\n", 0, max_length)) > max_length // 2:
      split_at = sent_pos + 1
    elif (space_pos := remaining.rfind(" ", 0, max_length)) > max_length // 2:
      split_at = space_pos + 1

(the walrus `or`-chain short-circuits: the newline search runs only when the
period position fails the test, which the nested `if` below reproduces).
Python `//` is floor division, `Int.fdiv` here. -/
def find_split_at (remaining : List Char) (max_length : Int) : Int :=
  if Int.fdiv max_length 2 < pyRFind ['\n', '\n'] remaining max_length then
    pyRFind ['\n', '\n'] remaining max_length + 2
  else if Int.fdiv max_length 2 < pyRFind ['.'] remaining max_length then
    pyRFind ['.'] remaining max_length + 1
  else if Int.fdiv max_length 2 < pyRFind ['\n'] remaining max_length then
    pyRFind ['\n'] remaining max_length + 1
  else if Int.fdiv max_length 2 < pyRFind [' '] remaining max_length then
    pyRFind [' '] remaining max_length + 1
  else max_length

/-- The `while remaining:` loop of `split_hebrew_text`, with explicit fuel.
For `max_length ≥ 1` every iteration strictly shortens `remaining`
(`segmenter_terminates` below), so fuel `remaining.length + 1` is exact and
larger fuels agree; on fuel exhaustion the result is `[]` (for
`max_length ∈ {0, -1, -2}` and suitable inputs the Python loop does not
terminate, and no fuel suffices). -/
def splitLoop (max_length : Int) : Nat → List Char → List (List Char)
  | 0, _ => []
  | fuel + 1, remaining =>
    if remaining.isEmpty then []
    else if (remaining.length : Int) ≤ max_length then [remaining]
    else
      let split_at := find_split_at remaining max_length
      let chunk := pyStrip (pyTake remaining split_at)
      (if chunk.isEmpty then [] else [chunk]) ++
        splitLoop max_length fuel (pyStrip (pyDrop remaining split_at))

/-- Embedding of `split_hebrew_text(text, max_length)` (formatters.py lines 277-330):
split long text into chunks at natural boundaries. -/
def split_hebrew_text (text : List Char) (max_length : Int) : List (List Char) :=
  if (text.length : Int) ≤ max_length then [text]
  else splitLoop max_length (text.length + 1) text

/-! ## The quote repository (repository.py) -/

/-- A quote as used by the rotation selector: only `id` and `category` take
part in selection and history bookkeeping (repository.py; models.py `Quote`).
Categories are the `QuoteCategory` string values; modelling them as strings
keeps the closed enumeration's identifiers. -/
structure RQuote where
  id : String
  category : String
deriving DecidableEq, Repr

/-- A `SentRecord` (models.py): `quote_id`, `sent_date`, `category`.  Dates
are abstract day numbers. -/
structure RSent where
  quote_id : String
  sent_date : Nat
  category : String
deriving DecidableEq, Repr

/-- Embedding of `get_sent_ids_by_category` (repository.py lines 229-232):
`{r.quote_id for r in history if r.category == category}`.  The Python set
is modelled as a list; only membership and emptiness are consumed, and both
agree with the set's. -/
def get_sent_ids_by_category (history : List RSent) (category : String) :
    List String :=
  (history.filter (fun r => r.category == category)).map RSent.quote_id

/-- Embedding of `get_random_by_category` (repository.py lines 172-206).  `exclude_ids`
is `set[str] | None` in Python and `if exclude_ids:` skips filtering for
both `None` and the empty set, so both are modelled by the empty list.
`random.choice(available)` returns `available[i]` for a uniformly drawn
in-range index `i`; the draw is modelled by an arbitrary `idx : Nat` taken
modulo the length, so every in-range index is a possible outcome. -/
def get_random_by_category (all_quotes : List RQuote)
    (exclude_ids : List String) (idx : Nat) : Option RQuote :=
  if all_quotes.isEmpty then none
  else
    let available :=
      if exclude_ids.isEmpty then all_quotes
      else all_quotes.filter (fun q => !(exclude_ids.contains q.id))
    let available := if available.isEmpty then all_quotes else available
    available.get? (idx % available.length)

/-- Embedding of `mark_as_sent` (repository.py lines 234-241): append a `SentRecord`
built by `SentRecord.from_quote` (the record's category is the quote's). -/
def mark_as_sent (history : List RSent) (q : RQuote) (sent_date : Nat) :
    List RSent :=
  history ++ [⟨q.id, sent_date, q.category⟩]

/-- One pick with the exclusion set recomputed from the ledger, without
recording — the call pattern of `get_daily_bundle` (repository.py lines
251-253).  `get_random_by_category` itself never touches the history, which
the unchanged second component makes explicit. -/
def pick_for_category (all_quotes : List RQuote) (category : String)
    (history : List RSent) (idx : Nat) : Option RQuote × List RSent :=
  (get_random_by_category all_quotes
      (get_sent_ids_by_category history category) idx,
   history)

/-- One `pick`+`record` cycle: recompute the exclusion set from the ledger,
pick, and on success record the delivery (`mark_as_sent`). -/
def pick_record_cycle (all_quotes : List RQuote) (category : String)
    (sent_date : Nat) (history : List RSent) (idx : Nat) :
    Option RQuote × List RSent :=
  let sent := get_sent_ids_by_category history category
  match get_random_by_category all_quotes sent idx with
  | none => (none, history)
  | some q => (some q, mark_as_sent history q sent_date)

/-- Run consecutive `pick`+`record` cycles, one per entry of `idxs` (each
entry is that cycle's random draw), collecting the picked quotes. -/
def run_cycles (all_quotes : List RQuote) (category : String)
    (sent_date : Nat) (history : List RSent) :
    List Nat → List RQuote × List RSent
  | [] => ([], history)
  | idx :: rest =>
    match pick_record_cycle all_quotes category sent_date history idx with
    | (q?, h') =>
      match run_cycles all_quotes category sent_date h' rest with
      | (qs, h'') =>
        ((match q? with | some q => q :: qs | none => qs), h'')

/-- The claim's "no item ID is returned twice within any window of `w`
consecutive cycles": no two picks at a distance below `w` coincide. -/
def noDupWindow (l : List String) (w : Nat) : Bool :=
  (List.range l.length).all fun i =>
    (List.range l.length).all fun j =>
      !(decide (i < j) && decide (j - i < w)) || l.get? i != l.get? j

/-! ## The date-seeded daily picker (quote_manager.py) -/

/-- A quote as handled by `QuoteManager` (raw dictionaries; only the
identity of the picked entry matters here). -/
structure QMQuote where
  id : String
deriving DecidableEq, Repr

/-- The list `QuoteManager.QUOTE_SOURCES` (quote_manager.py lines 88-96). -/
def QUOTE_SOURCES : List String :=
  ["arizal", "baal_shem_tov", "simcha_bunim", "kotzker",
   "baal_hasulam", "rabash", "ashlag_talmidim"]

/-- Lookup of `self.quotes_cache[source]` with the
`source not in self.quotes_cache` guard; the cache's `quotes` list per
source. -/
def lookupSource (cache : List (String × List QMQuote)) (source : String) :
    Option (List QMQuote) :=
  (cache.find? (fun p => p.1 == source)).map Prod.snd

/-- Embedding of `get_quote_for_source` (quote_manager.py lines 135-163), with the global
`random` state threaded explicitly (`rs` in, new state out):

    seed = self._get_daily_seed() + seed_offset
    random.seed(seed)            -- discards the incoming state
    selected = random.choice(quotes)

`daily_seed` is the value of `_get_daily_seed()` (the md5-derived hash of
today's ISO date — external `hashlib`); `seedFn`, `choiceFn`, `stepFn`
model the external `random` module as described in the file header.  The
source-name metadata attached to `selected` is presentational and omitted. -/
def get_quote_for_source (seedFn : Nat → Nat) (choiceFn : Nat → Nat → Nat)
    (stepFn : Nat → Nat) (cache : List (String × List QMQuote))
    (daily_seed : Nat) (source : String) (seed_offset : Nat) (rs : Nat) :
    Option QMQuote × Nat :=
  match lookupSource cache source with
  | none => (none, rs)
  | some quotes =>
    if quotes.isEmpty then (none, rs)
    else
      let seed := daily_seed + seed_offset
      let rs1 := seedFn seed
      (quotes.get? (choiceFn rs1 quotes.length), stepFn rs1)

/-- The `for i, source in enumerate(self.QUOTE_SOURCES)` loop of
`get_daily_quotes` (quote_manager.py lines 165-178). -/
def daily_quotes_go (seedFn : Nat → Nat) (choiceFn : Nat → Nat → Nat)
    (stepFn : Nat → Nat) (cache : List (String × List QMQuote))
    (daily_seed : Nat) : Nat → List String → Nat → List QMQuote × Nat
  | _, [], rs => ([], rs)
  | i, source :: rest, rs =>
    match get_quote_for_source seedFn choiceFn stepFn cache daily_seed
        source i rs with
    | (q?, rs') =>
      match daily_quotes_go seedFn choiceFn stepFn cache daily_seed
          (i + 1) rest rs' with
      | (qs, rs'') =>
        ((match q? with | some q => q :: qs | none => qs), rs'')

/-- Embedding of `get_daily_quotes` (quote_manager.py lines 165-178): one pick per source,
with `seed_offset = i` for the source at index `i`. -/
def get_daily_quotes (seedFn : Nat → Nat) (choiceFn : Nat → Nat → Nat)
    (stepFn : Nat → Nat) (cache : List (String × List QMQuote))
    (daily_seed : Nat) (rs : Nat) : List QMQuote × Nat :=
  daily_quotes_go seedFn choiceFn stepFn cache daily_seed 0 QUOTE_SOURCES rs

/-! ## The maamar message assembler (formatters.py, lines 263-471) -/

/-- The enumeration `SourceCategory` (models.py lines 26-63): the closed two-author
enumeration. -/
inductive SourceCategory where
  | baal_hasulam
  | rabash
deriving DecidableEq, Repr

/-- The property `SourceCategory.display_name_hebrew` (models.py lines 38-45). -/
def display_name_hebrew : SourceCategory → List Char
  | .baal_hasulam => "בעל הסולם".data
  | .rabash => "הרב\"ש".data

/-- The lookup `SOURCE_EMOJI.get(maamar.source, "📜")` (formatters.py lines 46-49);
the dictionary covers both constructors, so the default never applies. -/
def source_emoji : SourceCategory → List Char
  | .baal_hasulam => "📖".data
  | .rabash => "💎".data

/-- A `Maamar` (models.py lines 229-309), restricted to the fields the
formatter reads.  Pydantic bounds: `title` has `max_length=500` and `book`
`max_length=300`, while `subtitle` and `page` are unconstrained optional
strings; `text` has `min_length=10`. -/
structure PyMaamar where
  id : List Char
  source : SourceCategory
  title : List Char
  subtitle : Option (List Char)
  text : List Char
  book : List Char
  page : Option (List Char)
  source_url : List Char
deriving DecidableEq, Repr

/-- The constant `TELEGRAM_SAFE_LENGTH` (formatters.py line 33). -/
def TELEGRAM_SAFE_LENGTH : Nat := 3800

/-- Embedding of `format_maamar_header` (formatters.py lines 333-381), with the rendered
date string (`target_date.strftime("%d.%m.%Y")`) passed in.  Python's
`if maamar.subtitle:` / `if maamar.page:` treat `None` and the empty string
alike, hence the emptiness checks; `parts[-1] += …` for the page is folded
into the book line it extends. -/
def format_maamar_header (maamar : PyMaamar) (date_str : List Char) :
    List Char :=
  let emoji := source_emoji maamar.source
  let titleLine := "<b>".data ++ maamar.title ++ "</b>".data
  let subtitleLines :=
    match maamar.subtitle with
    | some s => if s.isEmpty then [] else ["<i>".data ++ s ++ "</i>".data]
    | none => []
  let bookLine :=
    "📚 ".data ++ maamar.book ++
      (match maamar.page with
       | some p => if p.isEmpty then [] else " | עמ׳ ".data ++ p
       | none => [])
  let parts :=
    ["🌅 <b>אשלג יומי</b> | ".data ++ date_str,
     [],
     "═══════════════════".data,
     [],
     emoji ++ " <b>".data ++ display_name_hebrew maamar.source ++ "</b>".data,
     [],
     titleLine] ++
    subtitleLines ++
    [[], bookLine] ++
    [[], "───────────────────".data, []]
  List.intercalate ['\n'] parts

/-- Embedding of `format_maamar_footer` (formatters.py lines 384-391). -/
def format_maamar_footer : List Char :=
  "\n───────────────────\n\n═══════════════════".data

/-- Embedding of `format_maamar_continuation_header` (formatters.py lines 394-405). -/
def format_maamar_continuation_header (part_num total_parts : Nat) :
    List Char :=
  "📜 חלק ".data ++ (Nat.repr part_num).data ++ "/".data ++
    (Nat.repr total_parts).data ++ "\n\n───────────────────\n\n".data

/-- The `for i, chunk in enumerate(text_chunks)` loop of `format_maamar`
(formatters.py lines 451-469): decorate each chunk according to its
position. -/
def build_maamar_messages (header footer : List Char) (total_parts : Nat) :
    Nat → List (List Char) → List (List Char)
  | _, [] => []
  | i, chunk :: rest =>
    (if i = 0 then
      if 1 < total_parts then header ++ chunk ++ " ...".data
      else header ++ chunk ++ footer
     else if i = total_parts - 1 then
      format_maamar_continuation_header (i + 1) total_parts ++ chunk ++ footer
     else
      format_maamar_continuation_header (i + 1) total_parts ++ chunk ++
        " ...".data) ::
      build_maamar_messages header footer total_parts (i + 1) rest

/-- The body chunks of `format_maamar` (formatters.py lines 434-449):
`first_chunk_max = TELEGRAM_SAFE_LENGTH - header_len - 50` (buffer for
`" ..."`), `other_chunk_max = TELEGRAM_SAFE_LENGTH -
continuation_header_len - footer_len - 50`; split with the first-chunk
budget, and re-split with the other-chunk budget if that produced a single
chunk still exceeding the first-chunk budget.  The budgets are Python `int`s
and may be negative when the header is oversized. -/
def format_maamar_chunks (maamar : PyMaamar) (date_str : List Char) :
    List (List Char) :=
  if (split_hebrew_text maamar.text
        ((TELEGRAM_SAFE_LENGTH : Int) -
          (format_maamar_header maamar date_str).length - 50)).length = 1 ∧
      ((TELEGRAM_SAFE_LENGTH : Int) -
          (format_maamar_header maamar date_str).length - 50) <
        (((split_hebrew_text maamar.text
            ((TELEGRAM_SAFE_LENGTH : Int) -
              (format_maamar_header maamar date_str).length - 50)).headD
          []).length : Int) then
    split_hebrew_text maamar.text
      ((TELEGRAM_SAFE_LENGTH : Int) -
        (format_maamar_continuation_header 99 99).length -
        format_maamar_footer.length - 50)
  else
    split_hebrew_text maamar.text
      ((TELEGRAM_SAFE_LENGTH : Int) -
        (format_maamar_header maamar date_str).length - 50)

/-- Embedding of `format_maamar` (formatters.py lines 408-471): render the header, split
the body if the whole message exceeds `TELEGRAM_SAFE_LENGTH`, and decorate
the chunks. -/
def format_maamar (maamar : PyMaamar) (date_str : List Char) :
    List (List Char) :=
  if (format_maamar_header maamar date_str ++ maamar.text ++
      format_maamar_footer).length ≤ TELEGRAM_SAFE_LENGTH then
    [format_maamar_header maamar date_str ++ maamar.text ++
      format_maamar_footer]
  else
    build_maamar_messages (format_maamar_header maamar date_str)
      format_maamar_footer (format_maamar_chunks maamar date_str).length 0
      (format_maamar_chunks maamar date_str)

/-! ## The `/today` handler's keyboard attachment (handlers.py, lines 156-172) -/

/-- The inline keyboard built by `build_maamar_keyboard` (formatters.py
lines 263-274): a single URL button. -/
structure MaamarKeyboard where
  button_text : List Char
  url : List Char
deriving DecidableEq, Repr

/-- Embedding of `build_maamar_keyboard` (formatters.py lines 263-274). -/
def build_maamar_keyboard (maamar : PyMaamar) : MaamarKeyboard :=
  ⟨"📖 מקור".data, maamar.source_url⟩

/-- The `for i, message in enumerate(messages)` send loop of `today_command`
(handlers.py lines 160-172):
`reply_markup = keyboard if i == len(messages) - 1 else None`. -/
def send_messages_go (keyboard : MaamarKeyboard) (total : Nat) :
    Nat → List (List Char) → List (List Char × Option MaamarKeyboard)
  | _, [] => []
  | i, message :: rest =>
    (message, if i = total - 1 then some keyboard else none) ::
      send_messages_go keyboard total (i + 1) rest

/-- The send plan of `today_command`: each formatted message paired with its
`reply_markup` (the source-link keyboard on the last message only). -/
def today_send_plan (messages : List (List Char))
    (keyboard : MaamarKeyboard) : List (List Char × Option MaamarKeyboard) :=
  send_messages_go keyboard messages.length 0 messages

/-! ## Spec-side definitions

These definitions follow the specification's words (not the code) and are
used to compare the code's behaviour against the spec: `ReassemblesTo` for
the segmentation round-trip, and the two split-choice functions for the
boundary-priority rule. -/

/-- The text reassembles from the chunks: the chunks appear in order,
separated (and surrounded) only by whitespace — precisely "concatenating the
chunks with the whitespace removed at each split point re-inserted
reproduces the original text"; no non-whitespace character is lost,
duplicated or reordered. -/
inductive ReassemblesTo : List Char → List (List Char) → Prop where
  | nil : ∀ w, (∀ c ∈ w, pyIsSpace c) → ReassemblesTo w []
  | cons : ∀ w chunk rest cs, (∀ c ∈ w, pyIsSpace c) →
      ReassemblesTo rest cs → ReassemblesTo (w ++ chunk ++ rest) (chunk :: cs)

/-- The substring `sub` occurs in `text` at position `i`, lying entirely inside the window
`text[0:w]`. -/
def specOccursAt (sub text : List Char) (w i : Nat) : Prop :=
  i + sub.length ≤ w ∧ (text.drop i).take sub.length = sub

instance (sub text : List Char) (w i : Nat) :
    Decidable (specOccursAt sub text w i) := by
  unfold specOccursAt; infer_instance

/-- The split choice exactly as the claim states it, for
`len(text) > maxLength`: (a) just after the last paragraph break at a
position strictly beyond half the window; (b) failing that, just after the
last sentence-ending period **or** single newline beyond the halfway point;
(c) failing that, just after the last space beyond the halfway point;
(d) failing all, a hard cut at exactly `maxLength`.  "Position `> m/2`" is
rendered as `m < 2 * position`, which for integers agrees with
`position > m // 2`.  `Nat.findGreatest` returns the largest qualifying
position (`0` when none exists; position `0` itself never lies beyond the
halfway point of a window with `m ≥ 1`, so the guard is unambiguous). -/
def split_point_spec_claimed (text : List Char) (m : Int) : Int :=
  if m < 2 * (Nat.findGreatest
      (specOccursAt ['\n', '\n'] text m.toNat) m.toNat : Int) then
    (Nat.findGreatest (specOccursAt ['\n', '\n'] text m.toNat) m.toNat : Int) + 2
  else if m < 2 * (Nat.findGreatest
      (fun i => specOccursAt ['.'] text m.toNat i ∨
        specOccursAt ['\n'] text m.toNat i) m.toNat : Int) then
    (Nat.findGreatest
      (fun i => specOccursAt ['.'] text m.toNat i ∨
        specOccursAt ['\n'] text m.toNat i) m.toNat : Int) + 1
  else if m < 2 * (Nat.findGreatest
      (specOccursAt [' '] text m.toNat) m.toNat : Int) then
    (Nat.findGreatest (specOccursAt [' '] text m.toNat) m.toNat : Int) + 1
  else m

/-- The amended split choice: as `split_point_spec_claimed`, except that
step (b) is split in two — the last period (`'.'`) beyond the halfway point
takes priority, and only if no period qualifies is the last single newline
beyond the halfway point considered. -/
def split_point_spec_amended (text : List Char) (m : Int) : Int :=
  if m < 2 * (Nat.findGreatest
      (specOccursAt ['\n', '\n'] text m.toNat) m.toNat : Int) then
    (Nat.findGreatest (specOccursAt ['\n', '\n'] text m.toNat) m.toNat : Int) + 2
  else if m < 2 * (Nat.findGreatest
      (specOccursAt ['.'] text m.toNat) m.toNat : Int) then
    (Nat.findGreatest (specOccursAt ['.'] text m.toNat) m.toNat : Int) + 1
  else if m < 2 * (Nat.findGreatest
      (specOccursAt ['\n'] text m.toNat) m.toNat : Int) then
    (Nat.findGreatest (specOccursAt ['\n'] text m.toNat) m.toNat : Int) + 1
  else if m < 2 * (Nat.findGreatest
      (specOccursAt [' '] text m.toNat) m.toNat : Int) then
    (Nat.findGreatest (specOccursAt [' '] text m.toNat) m.toNat : Int) + 1
  else m

/-! ## Basic lemmas -/

lemma contains_true_iff (l : List String) (s : String) :
    l.contains s = true ↔ s ∈ l := by
  simp [List.contains_iff_exists_mem_beq, beq_iff_eq]

lemma get?_mod_mem {α : Type} (l : List α) (idx : Nat) (h : l ≠ []) :
    ∃ a, l.get? (idx % l.length) = some a ∧ a ∈ l := by
  have hlt : idx % l.length < l.length :=
    Nat.mod_lt _ (List.length_pos.mpr h)
  exact ⟨l.get ⟨idx % l.length, hlt⟩, List.get?_eq_get hlt, List.get_mem _ _ _⟩

/-! ## C7: date-seeded determinism -/

lemma daily_quotes_go_fst_const (seedFn : Nat → Nat)
    (choiceFn : Nat → Nat → Nat) (stepFn : Nat → Nat)
    (cache : List (String × List QMQuote)) (daily_seed : Nat) :
    ∀ (srcs : List String) (i rs rs' : Nat),
      (daily_quotes_go seedFn choiceFn stepFn cache daily_seed i srcs rs).1 =
      (daily_quotes_go seedFn choiceFn stepFn cache daily_seed i srcs rs').1 := by
  intro srcs
  induction srcs with
  | nil => intro i rs rs'; rfl
  | cons s rest ih =>
    intro i rs rs'
    simp only [daily_quotes_go, get_quote_for_source]
    cases h : lookupSource cache s with
    | none => simpa using ih (i + 1) rs rs'
    | some quotes =>
      by_cases hq : quotes.isEmpty
      · simpa [hq] using ih (i + 1) rs rs'
      · simp [hq]

/-- C7: two date-seeded daily-pick runs (`get_daily_quotes`) for the same
calendar date (hence the same `_get_daily_seed()` value `daily_seed`), with
an unchanged corpus `cache`, return the same list of picked items, whatever
the incoming global `random` state (`rs` vs `rs'`) — `random.seed` is
re-applied before every draw, discarding that state. -/
theorem date_seeded_determinism (seedFn : Nat → Nat)
    (choiceFn : Nat → Nat → Nat) (stepFn : Nat → Nat)
    (cache : List (String × List QMQuote)) (daily_seed : Nat) (rs rs' : Nat) :
    (get_daily_quotes seedFn choiceFn stepFn cache daily_seed rs).1 =
    (get_daily_quotes seedFn choiceFn stepFn cache daily_seed rs').1 :=
  daily_quotes_go_fst_const seedFn choiceFn stepFn cache daily_seed
    QUOTE_SOURCES 0 rs rs'

/-! ## C9: single action placement -/

lemma send_messages_go_map_snd (keyboard : MaamarKeyboard) :
    ∀ (messages : List (List Char)) (i total : Nat),
      i + messages.length = total → messages ≠ [] →
      (send_messages_go keyboard total i messages).map Prod.snd =
        List.replicate (messages.length - 1) none ++ [some keyboard] := by
  intro messages
  induction messages with
  | nil => intro i total _ h; exact absurd rfl h
  | cons m rest ih =>
    intro i total htot _
    rcases List.eq_nil_or_concat rest with hrest | _
    · subst hrest
      have : i = total - 1 := by simp at htot; omega
      simp [send_messages_go, this]
    · have hrest : rest ≠ [] := by
        rintro rfl; simp_all
      have hlen : 1 ≤ rest.length := List.length_pos.mpr hrest
      have hne : ¬ i = total - 1 := by
        simp only [List.length_cons] at htot; omega
      have := ih (i + 1) total (by simp at htot ⊢; omega) hrest
      simp only [send_messages_go, List.map_cons, this, if_neg hne,
        List.length_cons]
      rw [show (rest.length + 1 - 1) = (rest.length - 1) + 1 by omega,
        List.replicate_succ]
      simp

/-- C9: when the assembly of an item produces `k > 1` messages, the
`/today` send loop attaches the source-link keyboard (`reply_markup`, the
action affordance) to the last message and to no earlier one: the sequence
of `reply_markup` values is `k - 1` times `none` followed by one
`some keyboard`. -/
theorem single_action_placement (messages : List (List Char))
    (keyboard : MaamarKeyboard) (h : 1 < messages.length) :
    (today_send_plan messages keyboard).map Prod.snd =
      List.replicate (messages.length - 1) none ++ [some keyboard] :=
  send_messages_go_map_snd keyboard messages 0 messages.length (by omega)
    (by rintro rfl; simp at h)

/-- Witness for C9 at a concrete two-message plan. -/
theorem single_action_placement_witness :
    1 < ([['a'], ['b']] : List (List Char)).length ∧
    (today_send_plan [['a'], ['b']] ⟨"t".data, "u".data⟩).map Prod.snd =
      List.replicate 1 none ++ [some ⟨"t".data, "u".data⟩] :=
  ⟨by decide, single_action_placement [['a'], ['b']] ⟨"t".data, "u".data⟩
    (by decide)⟩

/-! ## C6: the date-seeded pick ignores the delivery ledger -/

/-- C6 counterexample: `get_quote_for_source` draws from the **full** quote
list of the source and never consults any delivered/exclusion set.  With the
source `"arizal"` holding quotes `q0, q1`, a delivered set `{q0}`, and an
in-range uniform draw of index `0` (modelled by `choiceFn = fun _ _ => 0`),
the pick returns `q0` even though it is already delivered while `q1` is
not — refuting "drawing uniformly among the available items only …
layered on top of the exclusion-based rotation". -/
theorem date_seeded_exclusion_counterexample :
    (get_quote_for_source id (fun _ _ => 0) id
        [("arizal", [⟨"q0"⟩, ⟨"q1"⟩])] 5 "arizal" 0 7).1 = some ⟨"q0"⟩ ∧
    "q0" ∈ (["q0"] : List String) ∧ "q1" ∉ (["q0"] : List String) := by
  refine ⟨rfl, by decide, by decide⟩

/-- C6 amended: in the date-seeded mode, the pick for the source with
enumeration offset `i` seeds the random source with
`_get_daily_seed() + i` (the md5 hash of `date.isoformat()` plus the
category index) and then draws from the source's **entire** quote list;
no exclusion set is consulted — date seeding replaces the exclusion-based
rotation in this mode rather than layering on top of it. -/
theorem date_seeded_full_list (seedFn : Nat → Nat)
    (choiceFn : Nat → Nat → Nat) (stepFn : Nat → Nat)
    (cache : List (String × List QMQuote)) (daily_seed : Nat)
    (source : String) (offset rs : Nat) (quotes : List QMQuote)
    (hfind : lookupSource cache source = some quotes) (hne : quotes ≠ []) :
    (get_quote_for_source seedFn choiceFn stepFn cache daily_seed source
        offset rs).1 =
      quotes.get? (choiceFn (seedFn (daily_seed + offset)) quotes.length) := by
  simp [get_quote_for_source, hfind, hne]

/-- Witness for C6's amended theorem at a concrete cache and draw. -/
theorem date_seeded_full_list_witness :
    lookupSource [("arizal", [⟨"q0"⟩, ⟨"q1"⟩])] "arizal" =
        some [⟨"q0"⟩, ⟨"q1"⟩] ∧
    ([⟨"q0"⟩, ⟨"q1"⟩] : List QMQuote) ≠ [] ∧
    (get_quote_for_source Nat.succ (fun s n => s + n) id
        [("arizal", [⟨"q0"⟩, ⟨"q1"⟩])] 5 "arizal" 1 7).1 =
      ([⟨"q0"⟩, ⟨"q1"⟩] : List QMQuote).get? (Nat.succ (5 + 1) + 2) :=
  ⟨by decide, by decide,
    date_seeded_full_list Nat.succ (fun s n => s + n) id
      [("arizal", [⟨"q0"⟩, ⟨"q1"⟩])] 5 "arizal" 1 7 [⟨"q0"⟩, ⟨"q1"⟩]
      (by decide) (by decide)⟩

/-! ## C2: soft reset on exhaustion -/

/-- C2: if the category is non-empty and every one of its item IDs is
already in the exclusion set recomputed from the ledger, the pick still
returns an item, chosen from the **full** category list, and the delivery
ledger is left completely unchanged (the exclusion set is ignored for this
one selection only — nothing is erased from the history). -/
theorem soft_reset (all_quotes : List RQuote) (category : String)
    (history : List RSent) (idx : Nat) (hne : all_quotes ≠ [])
    (hall : ∀ q ∈ all_quotes,
      q.id ∈ get_sent_ids_by_category history category) :
    ∃ q ∈ all_quotes,
      pick_for_category all_quotes category history idx = (some q, history) := by
  obtain ⟨q₀, hq₀⟩ := List.exists_mem_of_ne_nil all_quotes hne
  have hSne : ¬ (get_sent_ids_by_category history category).isEmpty := by
    intro h
    rw [List.isEmpty_iff] at h
    exact absurd (hall q₀ hq₀) (by simp [h])
  have hfilter : all_quotes.filter
      (fun q => !((get_sent_ids_by_category history category).contains q.id))
        = [] := by
    rw [List.filter_eq_nil_iff]
    intro q hq
    simp [contains_true_iff, hall q hq]
  obtain ⟨q, hget, hmem⟩ := get?_mod_mem all_quotes idx hne
  refine ⟨q, hmem, ?_⟩
  simp only [pick_for_category, get_random_by_category,
    List.isEmpty_iff.not.mpr hne, if_false, Bool.false_eq_true,
    hSne, if_neg hSne, hfilter]
  simp [List.isEmpty_iff.not.mpr hne, ← List.get?_eq_getElem?, hget]

/-- Witness for C2: one exhausted single-item category. -/
theorem soft_reset_witness :
    ([⟨"x1", "a"⟩] : List RQuote) ≠ [] ∧
    (∀ q ∈ ([⟨"x1", "a"⟩] : List RQuote),
      q.id ∈ get_sent_ids_by_category [⟨"x1", 0, "a"⟩] "a") ∧
    ∃ q ∈ ([⟨"x1", "a"⟩] : List RQuote),
      pick_for_category [⟨"x1", "a"⟩] "a" [⟨"x1", 0, "a"⟩] 3 =
        (some q, [⟨"x1", 0, "a"⟩]) :=
  ⟨by decide, by decide,
    soft_reset [⟨"x1", "a"⟩] "a" [⟨"x1", 0, "a"⟩] 3 (by decide) (by decide)⟩

/-! ## C1: rotation without premature repeats -/

lemma get_random_by_category_avoids (all_quotes : List RQuote)
    (exclude_ids : List String) (idx : Nat)
    (hex : ∃ q ∈ all_quotes, q.id ∉ exclude_ids) :
    ∃ q, get_random_by_category all_quotes exclude_ids idx = some q ∧
      q ∈ all_quotes ∧ q.id ∉ exclude_ids := by
  obtain ⟨q₀, hq₀, hid₀⟩ := hex
  have hne : all_quotes ≠ [] := List.ne_nil_of_mem hq₀
  by_cases hee : exclude_ids.isEmpty
  · have hexnil : exclude_ids = [] := List.isEmpty_iff.mp hee
    obtain ⟨q, hget, hmem⟩ := get?_mod_mem all_quotes idx hne
    refine ⟨q, ?_, hmem, by simp [hexnil]⟩
    simp [get_random_by_category, List.isEmpty_iff.not.mpr hne, hee,
      ← List.get?_eq_getElem?, hget]
  · have hq0p : (!(exclude_ids.contains q₀.id)) = true := by
      simp [contains_true_iff, hid₀]
    have hfne : all_quotes.filter (fun q => !(exclude_ids.contains q.id)) ≠ [] :=
      List.ne_nil_of_mem (List.mem_filter.mpr ⟨hq₀, hq0p⟩)
    obtain ⟨q, hget, hmem⟩ :=
      get?_mod_mem (all_quotes.filter (fun q => !(exclude_ids.contains q.id)))
        idx hfne
    obtain ⟨hqmem, hqp⟩ := List.mem_filter.mp hmem
    have hnall : ¬ ∀ a ∈ all_quotes, a.id ∈ exclude_ids :=
      fun h => hid₀ (h q₀ hq₀)
    have hfun : (fun q : RQuote => !exclude_ids.contains q.id) =
        (fun q : RQuote => !decide (q.id ∈ exclude_ids)) := by
      funext q; simp [contains_true_iff]
    refine ⟨q, ?_, hqmem, ?_⟩
    · simp only [← hfun] at hnall ⊢
      simp [get_random_by_category, List.isEmpty_iff.not.mpr hne, hee,
        List.isEmpty_iff.not.mpr hfne, ← List.get?_eq_getElem?, hget, hnall,
        ← hfun]
    · intro hmem'
      rw [Bool.not_eq_true', ← Bool.not_eq_true] at hqp
      exact hqp ((contains_true_iff _ _).mpr hmem')

lemma get_sent_ids_append (history : List RSent) (r : RSent)
    (category : String) :
    get_sent_ids_by_category (history ++ [r]) category =
      get_sent_ids_by_category history category ++
        (if r.category = category then [r.quote_id] else []) := by
  by_cases h : r.category = category <;>
    simp [get_sent_ids_by_category, List.filter_append, h]

set_option maxHeartbeats 1000000 in
lemma run_cycles_nodup_aux (quotes : List RQuote) (cat : String) (d : Nat)
    (hnd : (quotes.map RQuote.id).Nodup)
    (hcat : ∀ q ∈ quotes, q.category = cat) :
    ∀ (idxs : List Nat) (history : List RSent),
      (∀ s ∈ get_sent_ids_by_category history cat, s ∈ quotes.map RQuote.id) →
      idxs.length + (get_sent_ids_by_category history cat).toFinset.card ≤
        quotes.length →
      ((run_cycles quotes cat d history idxs).1.map RQuote.id).Nodup ∧
      (∀ s ∈ (run_cycles quotes cat d history idxs).1.map RQuote.id,
        s ∉ get_sent_ids_by_category history cat) := by
  intro idxs
  induction idxs with
  | nil => intro history _ _; simp [run_cycles]
  | cons idx rest ih =>
    intro history hsub hcard
    set S := get_sent_ids_by_category history cat with hS
    -- some quote is not yet excluded
    have hSsub : S.toFinset ⊆ (quotes.map RQuote.id).toFinset := by
      intro a ha
      exact List.mem_toFinset.mpr (hsub a (List.mem_toFinset.mp ha))
    have hidscard : (quotes.map RQuote.id).toFinset.card = quotes.length := by
      rw [List.toFinset_card_of_nodup hnd, List.length_map]
    have hlt : S.toFinset.card < quotes.length := by
      simp only [List.length_cons] at hcard; omega
    have hnotsub : ¬ (quotes.map RQuote.id).toFinset ⊆ S.toFinset := by
      intro h
      have := Finset.card_le_card h
      omega
    obtain ⟨a, haids, haS⟩ := Finset.not_subset.mp hnotsub
    obtain ⟨q₀, hq₀, hq₀id⟩ :=
      List.mem_map.mp (List.mem_toFinset.mp haids)
    have hq₀S : q₀.id ∉ S := fun h =>
      haS (List.mem_toFinset.mpr (hq₀id ▸ h))
    -- the pick avoids the exclusion set
    obtain ⟨p, hpick, hpmem, hpS⟩ :=
      get_random_by_category_avoids quotes S idx ⟨q₀, hq₀, hq₀S⟩
    have hstep : pick_record_cycle quotes cat d history idx =
        (some p, history ++ [⟨p.id, d, p.category⟩]) := by
      simp [pick_record_cycle, ← hS, hpick, mark_as_sent]
    have hS' : get_sent_ids_by_category
        (history ++ [⟨p.id, d, p.category⟩]) cat = S ++ [p.id] := by
      rw [get_sent_ids_append, ← hS, if_pos (hcat p hpmem)]
    -- apply the induction hypothesis to the extended ledger
    have hsub' : ∀ s ∈ get_sent_ids_by_category
        (history ++ [⟨p.id, d, p.category⟩]) cat, s ∈ quotes.map RQuote.id := by
      rw [hS']
      intro s hs
      rcases List.mem_append.mp hs with h | h
      · exact hsub s h
      · simp only [List.mem_singleton] at h
        exact h ▸ List.mem_map_of_mem RQuote.id hpmem
    have hcard' : rest.length + (get_sent_ids_by_category
        (history ++ [⟨p.id, d, p.category⟩]) cat).toFinset.card ≤
          quotes.length := by
      rw [hS']
      have htf : (S ++ [p.id]).toFinset = insert p.id S.toFinset := by
        ext x; simp [or_comm]
      rw [htf, Finset.card_insert_of_not_mem
        (fun h => hpS (List.mem_toFinset.mp h))]
      simp only [List.length_cons] at hcard; omega
    obtain ⟨ihnd, ihnotin⟩ :=
      ih (history ++ [⟨p.id, d, p.category⟩]) hsub' hcard'
    -- assemble
    rcases hrr : run_cycles quotes cat d
        (history ++ [⟨p.id, d, p.category⟩]) rest with ⟨qs, h2⟩
    rw [hrr] at ihnd ihnotin
    have hrun : run_cycles quotes cat d history (idx :: rest) =
        (p :: qs, h2) := by
      simp only [run_cycles]
      rw [hstep, hrr]
    rw [hrun]
    simp only at ihnd ihnotin
    constructor
    · simp only [List.map_cons, List.nodup_cons]
      refine ⟨fun h => ?_, ihnd⟩
      have := ihnotin p.id h
      rw [hS'] at this
      exact this (List.mem_append_right _ (List.mem_singleton.mpr rfl))
    · intro s hs
      simp only [List.map_cons, List.mem_cons] at hs
      rcases hs with h | h
      · exact h ▸ hpS
      · intro hsS
        have := ihnotin s h
        rw [hS'] at this
        exact this (List.mem_append_left _ hsS)

/-- C1 counterexample: category `"a"` with the three distinct items
`x1, x2, x3` and an empty ledger.  Four `pick`+`record` cycles with the
uniform draws `0, 0, 0, 2` (each taken modulo the number of available
items) return `x1, x2, x3, x3`: cycles 3 and 4 — a window of
`N − 1 = 2` consecutive cycles — return the same item ID, because after the
third record the exclusion set holds every ID and the fourth pick soft-resets.
This refutes "no item ID is returned twice within **any** window of N−1
consecutive pick+record cycles, starting from an empty ledger". -/
theorem premature_repeat_counterexample :
    (([⟨"x1", "a"⟩, ⟨"x2", "a"⟩, ⟨"x3", "a"⟩] : List RQuote).map
        RQuote.id).Nodup ∧
    ([⟨"x1", "a"⟩, ⟨"x2", "a"⟩, ⟨"x3", "a"⟩] : List RQuote).length = 3 ∧
    ((run_cycles [⟨"x1", "a"⟩, ⟨"x2", "a"⟩, ⟨"x3", "a"⟩] "a" 0 []
        [0, 0, 0, 2]).1.map RQuote.id) = ["x1", "x2", "x3", "x3"] ∧
    noDupWindow ((run_cycles [⟨"x1", "a"⟩, ⟨"x2", "a"⟩, ⟨"x3", "a"⟩] "a" 0 []
        [0, 0, 0, 2]).1.map RQuote.id) (3 - 1) = false := by
  refine ⟨by decide, by decide, by decide, by decide⟩

/-- C1 amended: (i) whenever some item of the category lies outside the
exclusion set, `get_random_by_category` returns an item whose ID is not in
the exclusion set; (ii) starting from an **empty** ledger, the first `N`
consecutive `pick`+`record` cycles (`record` recomputing the exclusion set
from the ledger before each pick) return pairwise-distinct item IDs — in
particular no ID repeats within the first `N − 1` cycles.  (Once the
category is exhausted every later pick soft-resets, so windows reaching past
the first full cycle may repeat, as the counterexample shows.) -/
theorem rotation_no_premature_repeat :
    (∀ (all_quotes : List RQuote) (exclude_ids : List String) (idx : Nat),
        (∃ q ∈ all_quotes, q.id ∉ exclude_ids) →
        ∃ q, get_random_by_category all_quotes exclude_ids idx = some q ∧
          q ∈ all_quotes ∧ q.id ∉ exclude_ids) ∧
    (∀ (quotes : List RQuote) (cat : String) (d : Nat) (idxs : List Nat),
        (quotes.map RQuote.id).Nodup →
        (∀ q ∈ quotes, q.category = cat) →
        idxs.length ≤ quotes.length →
        ((run_cycles quotes cat d [] idxs).1.map RQuote.id).Nodup) := by
  refine ⟨get_random_by_category_avoids, ?_⟩
  intro quotes cat d idxs hnd hcat hlen
  refine (run_cycles_nodup_aux quotes cat d hnd hcat idxs [] ?_ ?_).1
  · simp [get_sent_ids_by_category]
  · simpa [get_sent_ids_by_category] using hlen

/-- Witness for C1's amended theorem: a fresh pick avoids the exclusion set,
and three cycles on a three-item category return three distinct IDs. -/
theorem rotation_no_premature_repeat_witness :
    (∃ q ∈ ([⟨"x1", "a"⟩, ⟨"x2", "a"⟩] : List RQuote), q.id ∉ ["x1"]) ∧
    (∃ q, get_random_by_category [⟨"x1", "a"⟩, ⟨"x2", "a"⟩] ["x1"] 4 =
        some q ∧ q ∈ ([⟨"x1", "a"⟩, ⟨"x2", "a"⟩] : List RQuote) ∧
        q.id ∉ ["x1"]) ∧
    ((run_cycles [⟨"x1", "a"⟩, ⟨"x2", "a"⟩, ⟨"x3", "a"⟩] "a" 0 []
        [1, 0, 0]).1.map RQuote.id).Nodup :=
  ⟨by decide,
    rotation_no_premature_repeat.1 [⟨"x1", "a"⟩, ⟨"x2", "a"⟩] ["x1"] 4
      (by decide),
    rotation_no_premature_repeat.2 [⟨"x1", "a"⟩, ⟨"x2", "a"⟩, ⟨"x3", "a"⟩]
      "a" 0 [1, 0, 0] (by decide) (by decide) (by decide)⟩

/-! ## Segmenter groundwork: `rfind`, `strip`, slice lemmas -/

lemma pyTake_nonneg (l : List Char) (i : Int) (h : 0 ≤ i) :
    pyTake l i = l.take i.toNat := by
  simp [pyTake, not_lt.mpr h]

lemma pyDrop_nonneg (l : List Char) (i : Int) (h : 0 ≤ i) :
    pyDrop l i = l.drop i.toNat := by
  simp [pyDrop, not_lt.mpr h]

lemma pyTake_append_pyDrop (l : List Char) (i : Int) (h : 0 ≤ i) :
    pyTake l i ++ pyDrop l i = l := by
  rw [pyTake_nonneg l i h, pyDrop_nonneg l i h]
  exact List.take_append_drop _ _

lemma pyStrip_length_le (l : List Char) : (pyStrip l).length ≤ l.length := by
  unfold pyStrip
  calc ((l.dropWhile pyIsSpace).reverse.dropWhile pyIsSpace).reverse.length
      = ((l.dropWhile pyIsSpace).reverse.dropWhile pyIsSpace).length := by
        rw [List.length_reverse]
    _ ≤ (l.dropWhile pyIsSpace).reverse.length :=
        (List.dropWhile_sublist _).length_le
    _ = (l.dropWhile pyIsSpace).length := by rw [List.length_reverse]
    _ ≤ l.length := (List.dropWhile_sublist _).length_le

/-- The `strip` decomposition: a list is whitespace, then its stripped core,
then whitespace. -/
lemma pyStrip_sandwich (l : List Char) :
    ∃ w₁ w₂, l = w₁ ++ pyStrip l ++ w₂ ∧
      (∀ c ∈ w₁, pyIsSpace c) ∧ (∀ c ∈ w₂, pyIsSpace c) := by
  refine ⟨l.takeWhile pyIsSpace,
    ((l.dropWhile pyIsSpace).reverse.takeWhile pyIsSpace).reverse, ?_, ?_, ?_⟩
  · conv_lhs => rw [← List.takeWhile_append_dropWhile (p := pyIsSpace) (l := l)]
    rw [List.append_assoc]
    congr 1
    conv_lhs => rw [← List.reverse_reverse (l.dropWhile pyIsSpace)]
    conv_lhs =>
      rw [← List.takeWhile_append_dropWhile (p := pyIsSpace)
        (l := (l.dropWhile pyIsSpace).reverse)]
    rw [List.reverse_append]
    rfl
  · intro c hc; exact List.mem_takeWhile_imp hc
  · intro c hc
    rw [List.mem_reverse] at hc
    exact List.mem_takeWhile_imp hc

/-- Full characterisation of the right-to-left scan: either no qualifying
occurrence below `n` and the result is `-1`, or the result is the greatest
qualifying occurrence below `n`. -/
lemma pyRFindGo_cases (sub l : List Char) (e : Nat) : ∀ n : Nat,
    (pyRFindGo sub l e n = -1 ∧
      ∀ i < n, ¬(i + sub.length ≤ e ∧ matchesAt sub l i = true)) ∨
    (∃ i : Nat, pyRFindGo sub l e n = (i : Int) ∧ i < n ∧
      (i + sub.length ≤ e ∧ matchesAt sub l i = true) ∧
      ∀ j, i < j → j < n → ¬(j + sub.length ≤ e ∧ matchesAt sub l j = true)) := by
  intro n
  induction n with
  | zero => exact Or.inl ⟨rfl, by omega⟩
  | succ k ih =>
    by_cases hok : k + sub.length ≤ e ∧ matchesAt sub l k = true
    · refine Or.inr ⟨k, ?_, Nat.lt_succ_self k, hok, by omega⟩
      simp [pyRFindGo, hok.1, hok.2]
    · have hgo : pyRFindGo sub l e (k + 1) = pyRFindGo sub l e k := by
        rw [pyRFindGo]
        rcases Decidable.not_and_iff_or_not.mp hok with h | h
        · simp [h]
        · simp [Bool.not_eq_true] at h
          simp [h]
      rcases ih with ⟨hres, hnone⟩ | ⟨i, hres, hlt, hiok, hmax⟩
      · refine Or.inl ⟨hgo.trans hres, ?_⟩
        intro i hi
        rcases Nat.lt_succ_iff_lt_or_eq.mp hi with h | h
        · exact hnone i h
        · exact h ▸ hok
      · refine Or.inr ⟨i, hgo.trans hres, Nat.lt_succ_of_lt hlt, hiok, ?_⟩
        intro j hij hj
        rcases Nat.lt_succ_iff_lt_or_eq.mp hj with h | h
        · exact hmax j hij h
        · exact h ▸ hok

lemma pyRFind_eq_go (sub l : List Char) (m : Int) (h0 : 0 ≤ m)
    (hlen : m ≤ (l.length : Int)) :
    pyRFind sub l m = pyRFindGo sub l m.toNat m.toNat := by
  have h1 : ¬ m < 0 := not_lt.mpr h0
  have h2 : m.toNat ≤ l.length := Int.toNat_le.mpr hlen
  simp [pyRFind, h1, Nat.min_eq_left h2]

lemma fdiv_two_ofNat (n : Nat) :
    Int.fdiv (n : Int) 2 = ((n / 2 : Nat) : Int) :=
  (Int.ofNat_fdiv n 2).symm

/-- For `1 ≤ max_length < len(remaining)` the chosen split position lies in
`[1, max_length]`. -/
lemma find_split_at_bounds (r : List Char) (m : Int) (hm : 1 ≤ m)
    (hlen : m < (r.length : Int)) :
    1 ≤ find_split_at r m ∧ find_split_at r m ≤ m := by
  have h0 : 0 ≤ m := by omega
  have hle : m ≤ (r.length : Int) := le_of_lt hlen
  have hmI : m = (m.toNat : Int) := (Int.toNat_of_nonneg h0).symm
  have hhalf : Int.fdiv m 2 = ((m.toNat / 2 : Nat) : Int) := by
    rw [hmI]; exact fdiv_two_ofNat m.toNat
  have hbound : ∀ sub : List Char,
      Int.fdiv m 2 < pyRFind sub r m →
      0 ≤ pyRFind sub r m ∧
        (pyRFind sub r m).toNat + sub.length ≤ m.toNat := by
    intro sub hcond
    rw [pyRFind_eq_go sub r m h0 hle] at hcond ⊢
    rcases pyRFindGo_cases sub r m.toNat m.toNat with ⟨hres, _⟩ |
      ⟨i, hres, _, ⟨hiok, _⟩, _⟩
    · rw [hres, hhalf] at hcond; omega
    · rw [hres] at hcond ⊢
      exact ⟨Int.natCast_nonneg i, by simpa using hiok⟩
  unfold find_split_at
  split_ifs with h1 h2 h3 h4
  · have := hbound ['\n', '\n'] h1
    simp only [List.length_cons, List.length_nil] at this
    omega
  · have := hbound ['.'] h2
    simp only [List.length_cons, List.length_nil] at this
    omega
  · have := hbound ['\n'] h3
    simp only [List.length_cons, List.length_nil] at this
    omega
  · have := hbound [' '] h4
    simp only [List.length_cons, List.length_nil] at this
    omega
  · omega

/-- The remaining text strictly shrinks at every loop iteration. -/
lemma split_rest_lt (r : List Char) (m : Int) (hm : 1 ≤ m)
    (hlen : m < (r.length : Int)) :
    (pyStrip (pyDrop r (find_split_at r m))).length < r.length := by
  obtain ⟨h1, h2⟩ := find_split_at_bounds r m hm hlen
  have h0 : 0 ≤ find_split_at r m := by omega
  rw [pyDrop_nonneg _ _ h0]
  have hstr := pyStrip_length_le (r.drop (find_split_at r m).toNat)
  rw [List.length_drop] at hstr
  omega

/-- The emitted chunk at every loop iteration is bounded by the budget. -/
lemma split_chunk_le (r : List Char) (m : Int) (hm : 1 ≤ m)
    (hlen : m < (r.length : Int)) :
    ((pyStrip (pyTake r (find_split_at r m))).length : Int) ≤ m := by
  obtain ⟨h1, h2⟩ := find_split_at_bounds r m hm hlen
  have h0 : 0 ≤ find_split_at r m := by omega
  rw [pyTake_nonneg _ _ h0]
  have hstr := pyStrip_length_le (r.take (find_split_at r m).toNat)
  have htk := List.length_take (find_split_at r m).toNat r
  omega

lemma splitLoop_length_le (m : Int) (hm : 1 ≤ m) :
    ∀ (n : Nat) (r : List Char), r.length ≤ n →
      ∀ c ∈ splitLoop m (n + 1) r, (c.length : Int) ≤ m := by
  intro n
  induction n with
  | zero =>
    intro r hr c hc
    have hnil : r = [] := List.length_eq_zero.mp (Nat.le_zero.mp hr)
    subst hnil
    simp [splitLoop] at hc
  | succ k ih =>
    intro r hr c hc
    rw [splitLoop] at hc
    by_cases he : r.isEmpty
    · simp [he] at hc
    · by_cases hle : (r.length : Int) ≤ m
      · simp only [he, Bool.false_eq_true, if_false, hle, if_true,
          List.mem_singleton] at hc
        exact hc ▸ hle
      · have hlen : m < (r.length : Int) := not_le.mp hle
        simp only [he, Bool.false_eq_true, if_false, hle, if_true] at hc
        rcases List.mem_append.mp hc with h | h
        · by_cases hch : (pyStrip (pyTake r (find_split_at r m))).isEmpty
          · simp [hch] at h
          · simp only [hch, Bool.false_eq_true, if_false,
              List.mem_singleton] at h
            exact h ▸ split_chunk_le r m hm hlen
        · exact ih (pyStrip (pyDrop r (find_split_at r m)))
            (by have := split_rest_lt r m hm hlen; omega) c h

/-- With `max_length ≥ 1` the loop's value does not depend on the fuel, as
long as the fuel exceeds the length of the remaining text. -/
lemma splitLoop_fuel_irrel (m : Int) (hm : 1 ≤ m) :
    ∀ (n : Nat) (r : List Char), r.length ≤ n → ∀ f g : Nat,
      r.length < f → r.length < g → splitLoop m f r = splitLoop m g r := by
  intro n
  induction n with
  | zero =>
    intro r hr f g hf hg
    have hnil : r = [] := List.length_eq_zero.mp (Nat.le_zero.mp hr)
    subst hnil
    obtain ⟨f', rfl⟩ : ∃ f', f = f' + 1 := ⟨f - 1, by omega⟩
    obtain ⟨g', rfl⟩ : ∃ g', g = g' + 1 := ⟨g - 1, by omega⟩
    simp [splitLoop]
  | succ k ih =>
    intro r hr f g hf hg
    obtain ⟨f', rfl⟩ : ∃ f', f = f' + 1 := ⟨f - 1, by omega⟩
    obtain ⟨g', rfl⟩ : ∃ g', g = g' + 1 := ⟨g - 1, by omega⟩
    rw [splitLoop, splitLoop]
    by_cases he : r.isEmpty
    · simp [he]
    · by_cases hle : (r.length : Int) ≤ m
      · simp [he, hle]
      · have hlen : m < (r.length : Int) := not_le.mp hle
        simp only [he, Bool.false_eq_true, if_false, hle, if_true]
        congr 1
        have hrest := split_rest_lt r m hm hlen
        exact ih (pyStrip (pyDrop r (find_split_at r m))) (by omega) f' g'
          (by omega) (by omega)

lemma reassembles_prepend (w t : List Char) (cs : List (List Char))
    (hw : ∀ c ∈ w, pyIsSpace c) (h : ReassemblesTo t cs) :
    ReassemblesTo (w ++ t) cs := by
  cases h with
  | nil w' hw' =>
    exact .nil _
      (fun c hc => (List.mem_append.mp hc).elim (hw c) (hw' c))
  | cons w' chunk rest cs' hw' hrest =>
    have hassoc : w ++ (w' ++ chunk ++ rest) = (w ++ w') ++ chunk ++ rest := by
      simp [List.append_assoc]
    rw [hassoc]
    exact .cons _ _ _ _
      (fun c hc => (List.mem_append.mp hc).elim (hw c) (hw' c)) hrest

lemma reassembles_append (t : List Char) (cs : List (List Char))
    (w : List Char) (h : ReassemblesTo t cs) (hw : ∀ c ∈ w, pyIsSpace c) :
    ReassemblesTo (t ++ w) cs := by
  induction h with
  | nil w' hw' =>
    exact .nil _
      (fun c hc => (List.mem_append.mp hc).elim (hw' c) (hw c))
  | cons w' chunk rest cs' hw' _ ih =>
    have hassoc : (w' ++ chunk ++ rest) ++ w = w' ++ chunk ++ (rest ++ w) := by
      simp [List.append_assoc]
    rw [hassoc]
    exact .cons _ _ _ _ hw' ih

/-- One loop iteration preserves reassembly: if the tail `R` (the stripped
remainder) reassembles to `cs`, then the whole `r` reassembles to the
emitted chunk (when non-empty) followed by `cs`. -/
lemma reassembles_step (r C R : List Char) (cs : List (List Char))
    (s : Int) (hs0 : 0 ≤ s) (hC : C = pyStrip (pyTake r s))
    (hR : R = pyStrip (pyDrop r s)) (hrec : ReassemblesTo R cs) :
    ReassemblesTo r ((if C.isEmpty then [] else [C]) ++ cs) := by
  obtain ⟨w1, w2, htake, hw1, hw2⟩ := pyStrip_sandwich (pyTake r s)
  obtain ⟨w3, w4, hdrop, hw3, hw4⟩ := pyStrip_sandwich (pyDrop r s)
  rw [← hC] at htake
  rw [← hR] at hdrop
  by_cases hch : C.isEmpty
  · simp only [hch, if_true, List.nil_append]
    have hempty : C = [] := List.isEmpty_iff.mp hch
    have hr_eq : r = (w1 ++ w2 ++ w3) ++ (R ++ w4) := by
      calc r = pyTake r s ++ pyDrop r s := (pyTake_append_pyDrop r s hs0).symm
        _ = (w1 ++ C ++ w2) ++ (w3 ++ R ++ w4) := by rw [← htake, ← hdrop]
        _ = (w1 ++ w2 ++ w3) ++ (R ++ w4) := by
            rw [hempty]; simp [List.append_assoc]
    rw [hr_eq]
    exact reassembles_prepend _ _ _
      (fun c hc => by
        rcases List.mem_append.mp hc with h | h
        · rcases List.mem_append.mp h with h' | h'
          · exact hw1 c h'
          · exact hw2 c h'
        · exact hw3 c h)
      (reassembles_append _ _ _ hrec hw4)
  · simp only [hch, Bool.false_eq_true, if_false, List.singleton_append]
    have hr_eq : r = w1 ++ C ++ ((w2 ++ w3) ++ (R ++ w4)) := by
      calc r = pyTake r s ++ pyDrop r s := (pyTake_append_pyDrop r s hs0).symm
        _ = (w1 ++ C ++ w2) ++ (w3 ++ R ++ w4) := by rw [← htake, ← hdrop]
        _ = w1 ++ C ++ ((w2 ++ w3) ++ (R ++ w4)) := by
            simp [List.append_assoc]
    rw [hr_eq]
    refine ReassemblesTo.cons w1 _ _ _ hw1 ?_
    exact reassembles_prepend _ _ _
      (fun c hc => (List.mem_append.mp hc).elim (hw2 c) (hw3 c))
      (reassembles_append _ _ _ hrec hw4)

lemma splitLoop_reassembles (m : Int) (hm : 1 ≤ m) :
    ∀ (n : Nat) (r : List Char), r.length ≤ n →
      ReassemblesTo r (splitLoop m (n + 1) r) := by
  intro n
  induction n with
  | zero =>
    intro r hr
    have hnil : r = [] := List.length_eq_zero.mp (Nat.le_zero.mp hr)
    subst hnil
    rw [splitLoop]
    simp only [List.isEmpty_nil, if_true]
    exact .nil [] (by simp)
  | succ k ih =>
    intro r hr
    rw [splitLoop]
    by_cases he : r.isEmpty
    · simp only [he, if_true]
      have hnil : r = [] := List.isEmpty_iff.mp he
      subst hnil
      exact .nil [] (by simp)
    · by_cases hle : (r.length : Int) ≤ m
      · simp only [he, Bool.false_eq_true, if_false, hle, if_true]
        have h1 := ReassemblesTo.cons [] r [] [] (by simp)
          (.nil [] (by simp))
        simpa using h1
      · have hlen : m < (r.length : Int) := not_le.mp hle
        simp only [he, Bool.false_eq_true, if_false, hle, if_true]
        obtain ⟨hs1, _⟩ := find_split_at_bounds r m hm hlen
        have h0 : 0 ≤ find_split_at r m := by omega
        have hrest := split_rest_lt r m hm hlen
        exact reassembles_step r _ _ _ (find_split_at r m) h0 rfl rfl
          (ih (pyStrip (pyDrop r (find_split_at r m))) (by omega))

/-! ## C3, C4, C10: the segmenter's contract -/

/-- C3: for every input text and every `maxLength ≥ 1`, every chunk returned
by `split_hebrew_text(text, maxLength)` has length at most `maxLength`. -/
theorem chunk_length_bound (text : List Char) (m : Int) (hm : 1 ≤ m) :
    ∀ chunk ∈ split_hebrew_text text m, (chunk.length : Int) ≤ m := by
  intro c hc
  unfold split_hebrew_text at hc
  by_cases hle : (text.length : Int) ≤ m
  · simp only [hle, if_true, List.mem_singleton] at hc
    exact hc ▸ hle
  · simp only [hle, if_false] at hc
    exact splitLoop_length_le m hm text.length text le_rfl c hc

/-- Witness for C3 at a concrete text and budget. -/
theorem chunk_length_bound_witness :
    (1 : Int) ≤ 4 ∧
    ∀ chunk ∈ split_hebrew_text "ab cd ef gh".data 4,
      (chunk.length : Int) ≤ 4 :=
  ⟨by decide, chunk_length_bound "ab cd ef gh".data 4 (by decide)⟩

/-- C4: for every input text and every `maxLength ≥ 1`, the chunks returned
by `split_hebrew_text` contain the non-whitespace of the text in order and
in full: re-inserting whitespace at the split boundaries (and at the two
ends) reproduces the original text exactly — nothing is lost, duplicated or
reordered, and only boundary whitespace may differ. -/
theorem segmentation_roundtrip (text : List Char) (m : Int) (hm : 1 ≤ m) :
    ReassemblesTo text (split_hebrew_text text m) := by
  unfold split_hebrew_text
  by_cases hle : (text.length : Int) ≤ m
  · simp only [hle, if_true]
    have h1 := ReassemblesTo.cons [] text [] [] (by simp) (.nil [] (by simp))
    simpa using h1
  · simp only [hle, if_false]
    exact splitLoop_reassembles m hm text.length text le_rfl

/-- Witness for C4 at a concrete text and budget. -/
theorem segmentation_roundtrip_witness :
    (1 : Int) ≤ 3 ∧ ReassemblesTo "ab cd".data (split_hebrew_text "ab cd".data 3) :=
  ⟨by decide, segmentation_roundtrip "ab cd".data 3 (by decide)⟩

/-- C10: the segmenter terminates for every text when `maxLength ≥ 1`:
(i) the chosen split position is strictly positive (and at most
`maxLength`); (ii) the stripped remainder strictly shrinks on every
iteration; (iii) hence the loop's value is independent of the fuel once the
fuel exceeds the text length — the recursion reaches the empty remainder and
the chunk list is finite. -/
theorem segmenter_terminates :
    (∀ (r : List Char) (m : Int), 1 ≤ m → m < (r.length : Int) →
      1 ≤ find_split_at r m ∧ find_split_at r m ≤ m) ∧
    (∀ (r : List Char) (m : Int), 1 ≤ m → m < (r.length : Int) →
      (pyStrip (pyDrop r (find_split_at r m))).length < r.length) ∧
    (∀ (text : List Char) (m : Int) (f g : Nat), 1 ≤ m →
      text.length < f → text.length < g →
      splitLoop m f text = splitLoop m g text) :=
  ⟨find_split_at_bounds, split_rest_lt,
    fun text m f g hm hf hg =>
      splitLoop_fuel_irrel m hm text.length text le_rfl f g hf hg⟩

/-- Witness for C10 at a concrete text, budget and two fuels. -/
theorem segmenter_terminates_witness :
    ((1 : Int) ≤ 3 ∧ (3 : Int) < (("aaaaaa".data : List Char).length : Int)) ∧
    (1 ≤ find_split_at "aaaaaa".data 3 ∧ find_split_at "aaaaaa".data 3 ≤ 3) ∧
    (pyStrip (pyDrop "aaaaaa".data (find_split_at "aaaaaa".data 3))).length <
      ("aaaaaa".data : List Char).length ∧
    splitLoop 3 7 "aaaaaa".data = splitLoop 3 9 "aaaaaa".data :=
  ⟨⟨by decide, by decide⟩,
    segmenter_terminates.1 "aaaaaa".data 3 (by decide) (by decide),
    segmenter_terminates.2.1 "aaaaaa".data 3 (by decide) (by decide),
    segmenter_terminates.2.2 "aaaaaa".data 3 7 9 (by decide) (by decide)
      (by decide)⟩

/-! ## C5: the boundary-priority rule -/

/-- The windowed `rfind` agrees with "the last occurrence beyond the halfway
point": the code's guard `pos > maxLength // 2` holds iff the spec's
"`2 · lastOccurrence > maxLength`" holds, and when it does, the found
position is exactly the greatest qualifying occurrence. -/
lemma branch_equiv (sub text : List Char) (hsub : sub ≠ []) (m : Int)
    (hm : 1 ≤ m) (hlen : m ≤ (text.length : Int)) :
    (Int.fdiv m 2 < pyRFind sub text m ↔
      m < 2 * (Nat.findGreatest (specOccursAt sub text m.toNat) m.toNat : Int)) ∧
    (Int.fdiv m 2 < pyRFind sub text m →
      pyRFind sub text m =
        (Nat.findGreatest (specOccursAt sub text m.toNat) m.toNat : Int)) := by
  have h0 : 0 ≤ m := by omega
  have hhalf : Int.fdiv m 2 = ((m.toNat / 2 : Nat) : Int) := by
    have h := fdiv_two_ofNat m.toNat
    rwa [Int.toNat_of_nonneg h0] at h
  have hsl : 1 ≤ sub.length := List.length_pos.mpr hsub
  have hOcc : ∀ i, (i + sub.length ≤ m.toNat ∧ matchesAt sub text i = true) ↔
      specOccursAt sub text m.toNat i := by
    intro i
    simp [matchesAt, specOccursAt]
  rw [pyRFind_eq_go sub text m h0 hlen]
  rcases pyRFindGo_cases sub text m.toNat m.toNat with ⟨hres, hnone⟩ |
    ⟨i, hres, _, hok, hmax⟩
  · rw [hres]
    have hfg : Nat.findGreatest (specOccursAt sub text m.toNat) m.toNat = 0 := by
      rw [Nat.findGreatest_eq_zero_iff]
      intro n _ _ hP
      have hlt' : n < m.toNat := by have := hP.1; omega
      exact hnone n hlt' ((hOcc n).mpr hP)
    rw [hfg]
    have hneg : ¬ (Int.fdiv m 2 < -1) := by rw [hhalf]; omega
    refine ⟨⟨fun h => absurd h hneg, fun h => ?_⟩, fun h => absurd h hneg⟩
    exfalso
    simp only [Nat.cast_zero, mul_zero] at h
    omega
  · rw [hres]
    have hie : i < m.toNat := by have := hok.1; omega
    have hfg : Nat.findGreatest (specOccursAt sub text m.toNat) m.toNat = i := by
      apply le_antisymm
      · by_contra hcon
        have hgt : i < Nat.findGreatest (specOccursAt sub text m.toNat) m.toNat :=
          not_le.mp hcon
        have hPg : specOccursAt sub text m.toNat
            (Nat.findGreatest (specOccursAt sub text m.toNat) m.toNat) :=
          Nat.findGreatest_of_ne_zero rfl (by omega)
        have hglt : Nat.findGreatest (specOccursAt sub text m.toNat) m.toNat <
            m.toNat := by have := hPg.1; omega
        exact hmax _ hgt hglt ((hOcc _).mpr hPg)
      · exact Nat.le_findGreatest (le_of_lt hie) ((hOcc i).mp hok)
    rw [hfg, hhalf]
    exact ⟨by omega, fun _ => rfl⟩

/-- C5 counterexample: for the 12-character text `"aaaaaa.a\naaa"` and
`maxLength = 10` the window holds a period at position 6 and a newline at
position 8, both beyond the halfway point 5.  The claim's rule (b) — "the
last sentence-ending punctuation **or** single newline" — picks the newline
and splits at 9; the code checks the period first and splits at 7. -/
theorem split_priority_counterexample :
    (10 : Int) < (("aaaaaa.a\naaa".data : List Char).length : Int) ∧
    find_split_at "aaaaaa.a\naaa".data 10 = 7 ∧
    split_point_spec_claimed "aaaaaa.a\naaa".data 10 = 9 ∧
    find_split_at "aaaaaa.a\naaa".data 10 ≠
      split_point_spec_claimed "aaaaaa.a\naaa".data 10 := by
  refine ⟨by decide, by decide, by decide, by decide⟩

/-- C5 amended: for `len(text) > maxLength ≥ 1`, the split point is chosen
by this priority order — just after the last paragraph break (`"\n\n"`)
beyond the halfway point; failing that, just after the last **period**
(`'.'`) beyond the halfway point; failing that, just after the last single
newline beyond the halfway point; failing that, just after the last space
beyond the halfway point; failing all, a hard cut at exactly `maxLength`
(the only case in which a word may be split). -/
theorem split_priority_amended (text : List Char) (m : Int) (hm : 1 ≤ m)
    (hlen : m < (text.length : Int)) :
    find_split_at text m = split_point_spec_amended text m := by
  have hle : m ≤ (text.length : Int) := le_of_lt hlen
  obtain ⟨hiff1, heq1⟩ := branch_equiv ['\n', '\n'] text (by simp) m hm hle
  obtain ⟨hiff2, heq2⟩ := branch_equiv ['.'] text (by simp) m hm hle
  obtain ⟨hiff3, heq3⟩ := branch_equiv ['\n'] text (by simp) m hm hle
  obtain ⟨hiff4, heq4⟩ := branch_equiv [' '] text (by simp) m hm hle
  unfold find_split_at split_point_spec_amended
  by_cases h1 : Int.fdiv m 2 < pyRFind ['\n', '\n'] text m
  · rw [if_pos h1, if_pos (hiff1.mp h1), heq1 h1]
  · rw [if_neg h1, if_neg (fun hc => h1 (hiff1.mpr hc))]
    by_cases h2 : Int.fdiv m 2 < pyRFind ['.'] text m
    · rw [if_pos h2, if_pos (hiff2.mp h2), heq2 h2]
    · rw [if_neg h2, if_neg (fun hc => h2 (hiff2.mpr hc))]
      by_cases h3 : Int.fdiv m 2 < pyRFind ['\n'] text m
      · rw [if_pos h3, if_pos (hiff3.mp h3), heq3 h3]
      · rw [if_neg h3, if_neg (fun hc => h3 (hiff3.mpr hc))]
        by_cases h4 : Int.fdiv m 2 < pyRFind [' '] text m
        · rw [if_pos h4, if_pos (hiff4.mp h4), heq4 h4]
        · rw [if_neg h4, if_neg (fun hc => h4 (hiff4.mpr hc))]

/-- Witness for C5's amended theorem at a concrete text and budget. -/
theorem split_priority_amended_witness :
    ((1 : Int) ≤ 10 ∧
      (10 : Int) < (("aaaaaa.a\naaa".data : List Char).length : Int)) ∧
    find_split_at "aaaaaa.a\naaa".data 10 =
      split_point_spec_amended "aaaaaa.a\naaa".data 10 :=
  ⟨⟨by decide, by decide⟩,
    split_priority_amended "aaaaaa.a\naaa".data 10 (by decide) (by decide)⟩

/-! ## C8: no fail-fast on an oversized header -/

lemma length_le_intercalate (sep : List Char) :
    ∀ (parts : List (List Char)) (p : List Char), p ∈ parts →
      p.length ≤ (List.intercalate sep parts).length := by
  intro parts
  induction parts with
  | nil => simp
  | cons a rest ih =>
    intro p hp
    rcases List.mem_cons.mp hp with h | h
    · subst h
      cases rest with
      | nil => simp [List.intercalate]
      | cons b t =>
        have heq : List.intercalate sep (p :: b :: t) =
            p ++ (sep ++ List.intercalate sep (b :: t)) := by
          simp [List.intercalate, List.intersperse]
        rw [heq, List.length_append]
        omega
    · cases rest with
      | nil => simp at h
      | cons b t =>
        have heq : List.intercalate sep (a :: b :: t) =
            a ++ (sep ++ List.intercalate sep (b :: t)) := by
          simp [List.intercalate, List.intersperse]
        rw [heq]
        have hih := ih p h
        simp only [List.length_append]
        omega

/-- A non-empty subtitle appears in the rendered header inside `<i>…</i>`,
so the header is at least 7 characters longer than the subtitle. -/
lemma subtitle_le_header (maamar : PyMaamar) (date_str s : List Char)
    (hs : maamar.subtitle = some s) (hne : s.isEmpty = false) :
    s.length + 7 ≤ (format_maamar_header maamar date_str).length := by
  unfold format_maamar_header
  rw [hs]
  simp only [hne, Bool.false_eq_true, if_false]
  refine le_trans ?_
    (length_le_intercalate ['\n'] _ ("<i>".data ++ s ++ "</i>".data) (by simp))
  simp only [List.length_append, List.length_cons, List.length_nil]
  omega

/-- With a negative `end`, clamped to 0, `rfind` returns `-1`. -/
lemma pyRFind_neg_end (sub l : List Char) (m : Int) (hneg : m < 0)
    (hclamp : (l.length : Int) + m ≤ 0) :
    pyRFind sub l m = -1 := by
  have h0 : ((l.length : Int) + m).toNat = 0 := by omega
  simp [pyRFind, hneg, h0, pyRFindGo]

/-- For a budget below both `-3` and `-len(text)` (the oversized-header
regime) the split loop cuts one character at a time, so a text starting with
a non-whitespace character yields a non-empty chunk list. -/
lemma split_hebrew_text_neg_ne_nil (c : Char) (t : List Char)
    (hc : pyIsSpace c = false) (m : Int) (hm3 : m ≤ -3)
    (hmlen : m ≤ -(((c :: t).length : Int))) :
    split_hebrew_text (c :: t) m ≠ [] := by
  have hlen : ¬ (((c :: t).length : Int) ≤ m) := by
    simp only [List.length_cons]
    omega
  unfold split_hebrew_text
  rw [if_neg hlen, splitLoop]
  simp only [List.isEmpty_cons, Bool.false_eq_true, if_false]
  rw [if_neg hlen]
  have hhalf : Int.fdiv m 2 = m / 2 := Int.fdiv_eq_ediv m (by omega)
  have hrf : pyRFind ['\n', '\n'] (c :: t) m = -1 :=
    pyRFind_neg_end _ _ _ (by omega) (by omega)
  have hsplit : find_split_at (c :: t) m = 1 := by
    unfold find_split_at
    rw [hrf, if_pos (by rw [hhalf]; omega)]
    norm_num
  rw [hsplit]
  have hchunk : pyStrip (pyTake (c :: t) 1) = [c] := by
    rw [pyTake_nonneg _ _ (by norm_num)]
    show pyStrip ((c :: t).take (1 : Int).toNat) = [c]
    norm_num
    simp [pyStrip, List.dropWhile, hc]
  rw [hchunk]
  simp

/-- The first message of `format_maamar` always begins with the full
rendered header, so an oversized header forces the first message over the
limit (there is no error path in `format_maamar`). -/
lemma format_maamar_head_overflow (maamar : PyMaamar) (date_str : List Char)
    (hne : format_maamar maamar date_str ≠ [])
    (hbig : TELEGRAM_SAFE_LENGTH <
      (format_maamar_header maamar date_str).length) :
    ∃ msg, (format_maamar maamar date_str).head? = some msg ∧
      TELEGRAM_SAFE_LENGTH < msg.length := by
  unfold format_maamar at hne ⊢
  by_cases hfit : (format_maamar_header maamar date_str ++ maamar.text ++
      format_maamar_footer).length ≤ TELEGRAM_SAFE_LENGTH
  · rw [if_pos hfit]
    refine ⟨_, rfl, ?_⟩
    simp only [List.length_append]
    omega
  · rw [if_neg hfit] at hne ⊢
    cases hchunks : format_maamar_chunks maamar date_str with
    | nil =>
      rw [hchunks] at hne
      exact absurd rfl hne
    | cons c rest =>
      rw [build_maamar_messages]
      rw [if_pos (rfl : (0 : Nat) = 0)]
      by_cases ht : 1 < (c :: rest).length
      · rw [if_pos ht]
        refine ⟨_, rfl, ?_⟩
        simp only [List.length_append]
        omega
      · rw [if_neg ht]
        refine ⟨_, rfl, ?_⟩
        simp only [List.length_append]
        omega

/-- A maamar all of whose Pydantic-constrained fields are within bounds
(the subtitle field carries no length bound) whose rendered header exceeds
`TELEGRAM_SAFE_LENGTH`. -/
def oversizedMaamar : PyMaamar :=
  ⟨"i".data, .baal_hasulam, "t".data, some (List.replicate 3800 'x'),
    List.replicate 10 'y', "b".data, none, "https://e".data⟩

/-- A rendered date string, `strftime("%d.%m.%Y")` output. -/
def sampleDate : List Char := "01.01.2025".data

lemma oversized_header_big :
    TELEGRAM_SAFE_LENGTH <
      (format_maamar_header oversizedMaamar sampleDate).length := by
  have h := subtitle_le_header oversizedMaamar sampleDate
    (List.replicate 3800 'x') rfl
    (by rw [show List.replicate 3800 'x' = 'x' :: List.replicate 3799 'x'
          from rfl]
        rfl)
  rw [List.length_replicate] at h
  have hT : TELEGRAM_SAFE_LENGTH = 3800 := rfl
  omega

lemma oversized_chunks_ne_nil :
    format_maamar_chunks oversizedMaamar sampleDate ≠ [] := by
  have hbig := oversized_header_big
  have hT : TELEGRAM_SAFE_LENGTH = 3800 := rfl
  unfold format_maamar_chunks
  split_ifs with hcond
  · have hc34 : (format_maamar_continuation_header 99 99).length = 34 := by
      decide
    have hf41 : format_maamar_footer.length = 41 := by decide
    rw [hc34, hf41,
      show oversizedMaamar.text = 'y' :: List.replicate 9 'y' from rfl]
    unfold split_hebrew_text
    rw [if_pos (by
      simp only [List.length_cons, List.length_replicate]
      omega)]
    exact List.cons_ne_nil _ _
  · rw [show oversizedMaamar.text = 'y' :: List.replicate 9 'y' from rfl]
    refine split_hebrew_text_neg_ne_nil 'y' (List.replicate 9 'y')
      (by decide) _ (by omega) ?_
    simp only [List.length_cons, List.length_replicate]
    omega

lemma oversized_format_ne_nil :
    format_maamar oversizedMaamar sampleDate ≠ [] := by
  have hbig := oversized_header_big
  unfold format_maamar
  rw [if_neg (by
    simp only [List.length_append]
    omega)]
  cases hchunks : format_maamar_chunks oversizedMaamar sampleDate with
  | nil => exact absurd hchunks oversized_chunks_ne_nil
  | cons c rest =>
    rw [build_maamar_messages]
    exact List.cons_ne_nil _ _

/-- C8 counterexample: `oversizedMaamar` has a subtitle (a field with no
Pydantic length bound) making the rendered header longer than
`TELEGRAM_SAFE_LENGTH`.  `format_maamar` raises no error — it has no error
path at all — and emits a message longer than `TELEGRAM_SAFE_LENGTH`,
refuting "fails fast … and never silently emits an over-length chunk". -/
theorem header_overflow_counterexample :
    TELEGRAM_SAFE_LENGTH <
      (format_maamar_header oversizedMaamar sampleDate).length ∧
    ∃ msg ∈ format_maamar oversizedMaamar sampleDate,
      TELEGRAM_SAFE_LENGTH < msg.length := by
  refine ⟨oversized_header_big, ?_⟩
  obtain ⟨msg, hhead, hlen⟩ := format_maamar_head_overflow oversizedMaamar
    sampleDate oversized_format_ne_nil oversized_header_big
  exact ⟨msg, List.mem_of_mem_head? hhead, hlen⟩

/-- C8 amended: `format_maamar` does **not** fail fast.  It raises or
returns no error; its first message always carries the full rendered header,
so whenever the header alone exceeds `TELEGRAM_SAFE_LENGTH` (and any message
is produced at all) the first emitted message silently exceeds the limit. -/
theorem header_overflow_amended (maamar : PyMaamar) (date_str : List Char)
    (hne : format_maamar maamar date_str ≠ [])
    (hbig : TELEGRAM_SAFE_LENGTH <
      (format_maamar_header maamar date_str).length) :
    ∃ msg, (format_maamar maamar date_str).head? = some msg ∧
      TELEGRAM_SAFE_LENGTH < msg.length :=
  format_maamar_head_overflow maamar date_str hne hbig

/-- Witness for C8's amended theorem at the oversized-header maamar. -/
theorem header_overflow_amended_witness :
    format_maamar oversizedMaamar sampleDate ≠ [] ∧
    TELEGRAM_SAFE_LENGTH <
      (format_maamar_header oversizedMaamar sampleDate).length ∧
    ∃ msg, (format_maamar oversizedMaamar sampleDate).head? = some msg ∧
      TELEGRAM_SAFE_LENGTH < msg.length :=
  ⟨oversized_format_ne_nil, oversized_header_big,
    header_overflow_amended oversizedMaamar sampleDate
      oversized_format_ne_nil oversized_header_big⟩

end AshlagYomi
